import Mathlib

/-!
Shallow embedding of the eps-calculator script (src/calculate.py) and proofs
about it.  The script stitches polarization time series from several
simulation segments, corrects branch-cut jumps, and computes dielectric
constants.  Dipole table entries (numpy float rows) are modelled with
rational numbers; the final permittivity formulas, which involve pi, live in
the real numbers.
-/

set_option maxHeartbeats 1000000

namespace EpsCalc

/-- One row of a parsed dipole table: column 0 is the step index, column 1 the
step duration, columns 2 and 3 the electronic and ionic dipole, and the last
column the total dipole. -/
structure Sample where
  step : ℚ
  dur : ℚ
  elec : ℚ
  ion : ℚ
  tot : ℚ
deriving DecidableEq

/-- Error conditions of a run, named as in the design's error taxonomy.
The script signals them as uncaught Python exceptions (an IndexError or
ValueError for an empty required segment at lines 30, 50, 67 and 89 of
calculate.py, and a NameError for the undefined variable p1 at line 89 when
no clamped-ion file was supplied); either way the run terminates with no
results printed. -/
inductive CalcError where
  | emptyInput
  | missingClampedSegment
deriving DecidableEq

/-- Line 29-30 of calculate.py: the zero-field reference sample is the LAST
row of the zero-field dipole table. -/
def zeroFieldSample (zf : List Sample) : Option Sample :=
  zf.getLast?

/-- Lines 38-39: the relaxed-ion file list is sorted in place unless the
nosort flag is given.  Python's list.sort is an ascending sort; it is
modelled here by insertion sort. -/
def insertSorted (x : String) : List String → List String
  | [] => [x]
  | y :: ys => if x ≤ y then x :: y :: ys else y :: insertSorted x ys

/-- The final contents of the files variable after line 39 (files.sort()
mutates the argparse-owned list in place when sorting is enabled). -/
def sortFiles (nosort : Bool) (files : List String) : List String :=
  if nosort then files else files.foldr insertSorted []

/-- Line 48: a Python dict assignment pols[key] = row.  A dict keeps a key at
its first-insertion position when its value is overwritten, and appends a
fresh key at the end.  The dict is modelled as an association list whose keys
are unique by construction. -/
def dictInsert (d : List (ℚ × Sample)) (k : ℚ) (v : Sample) : List (ℚ × Sample) :=
  if k ∈ d.map Prod.fst then d.map (fun p => if p.1 = k then (k, v) else p)
  else d ++ [(k, v)]

/-- The value-overwrite part of dictInsert, for reasoning. -/
def dictReplace (d : List (ℚ × Sample)) (k : ℚ) (v : Sample) : List (ℚ × Sample) :=
  d.map (fun p => if p.1 = k then (k, v) else p)

/-- Lines 46-48: insert every row of one file's table, keyed by its step
index (column 0), into the dict; a later row with the same key overwrites an
earlier one. -/
def buildDict (d : List (ℚ × Sample)) (seg : List Sample) : List (ℚ × Sample) :=
  seg.foldl (fun d s => dictInsert d s.step s) d

/-- Lines 42-48: the pols dict accumulated over all relaxed-ion files in
processing order.  The if len(pol) guard of line 46 is redundant for the
dict build (an empty table inserts nothing). -/
def pols (segs : List (List Sample)) : List (ℚ × Sample) :=
  segs.foldl buildDict []

/-- Lines 41-50, deduplicate mode.  Line 49 builds a step-sorted OrderedDict
into p2, but line 50 immediately rebinds p2 to a concatenation that iterates
the ORIGINAL dict pols, so the emitted rows are in first-insertion key
order, not ascending key order.  np.concatenate raises ValueError on an
empty list of arrays, which is modelled as the emptyInput error. -/
def dedupStitch (segs : List (List Sample)) : Except CalcError (List Sample) :=
  let d := pols segs
  if d.isEmpty then .error .emptyInput else .ok (d.map Prod.snd)

/-- Shift every step index of a table by a constant: the in-place numpy
update pol[:, 0] += c of line 60. -/
def shiftSeg (c : ℚ) (seg : List Sample) : List Sample :=
  seg.map (fun s => ⟨s.step + c, s.dur, s.elec, s.ion, s.tot⟩)

/-- The step index of the last row, p2[-1, 0]; defaults to 0 on an empty
list (the script never reaches that case: p2 is only ever bound to a
non-empty table). -/
def lastStep (l : List Sample) : ℚ :=
  (l.getLast?.map Sample.step).getD 0

/-- Lines 53-61, the body of one loop iteration in sequential (extend)
mode: skip an empty table, otherwise start or extend the running
concatenation p2, shifting the new table's step indices by the running
total's last step index. -/
def seqStep (p2 : Option (List Sample)) (pol : List Sample) : Option (List Sample) :=
  if pol.isEmpty then p2
  else
    match p2 with
    | none => some pol
    | some acc => some (acc ++ shiftSeg (lastStep acc) pol)

/-- Lines 51-61, sequential mode: fold over the files.  Returns none when
every file was empty (the script would then crash dereferencing p2). -/
def seqStitch (segs : List (List Sample)) : Option (List Sample) :=
  segs.foldl seqStep none

/-- Sequential mode with the final contents of each file's pol array also
recorded: line 60 mutates the freshly parsed table in place (pol[:, 0] +=
p2[-1, 0]) before concatenating, so after the loop the table of every file
that extended a non-empty running total holds shifted step indices.  The
first component lists the final per-file tables, the second is p2. -/
def seqStepState (st : List (List Sample) × Option (List Sample)) (pol : List Sample) :
    List (List Sample) × Option (List Sample) :=
  if pol.isEmpty then (st.1 ++ [pol], st.2)
  else
    match st.2 with
    | none => (st.1 ++ [pol], some pol)
    | some acc =>
      let shifted := shiftSeg (lastStep acc) pol
      (st.1 ++ [shifted], some (acc ++ shifted))

def seqStitchState (segs : List (List Sample)) : List (List Sample) × Option (List Sample) :=
  segs.foldl seqStepState ([], none)

/-- Sequential mode as the script's downstream code sees it, with an
emptyInput error when no file contributed samples (the script would crash at
line 67 or 76 slicing p2 = None). -/
def seqStitchExcept (segs : List (List Sample)) : Except CalcError (List Sample) :=
  match seqStitch segs with
  | none => .error .emptyInput
  | some p2 => .ok p2

/-- Running sums of a list, as np.cumsum: same length, k-th entry the sum of
the first k+1 entries. -/
def cumsum (l : List ℚ) : List ℚ :=
  (List.scanl (· + ·) 0 l).tail

/-- Line 66: t8, the clamped-ion time axis, a leading zero followed by the
cumulative sum of the clamped step durations (column 1). -/
def clampedAxis (p1 : List Sample) : List ℚ :=
  List.scanl (· + ·) 0 (p1.map Sample.dur)

/-- Last element of a rational list with default 0, as the numpy index [-1]
on a list known non-empty. -/
def lastD (l : List ℚ) : ℚ :=
  l.getLast?.getD 0

/-- First sample's step index, p2[0, 0], default 0. -/
def headStep (l : List Sample) : ℚ :=
  (l.head?.map Sample.step).getD 0

/-- First sample's step duration, p2[0, 1], default 0. -/
def headDur (l : List Sample) : ℚ :=
  (l.head?.map Sample.dur).getD 0

/-- Line 67: t9, the relaxed-ion time axis: cumulative durations, shifted by
p2[0, 0] * p2[0, 1] + t8[-1] (numpy broadcasts the scalar sum over the
array). -/
def relaxedAxis (p1 p2 : List Sample) : List ℚ :=
  (cumsum (p2.map Sample.dur)).map (· + (headStep p2 * headDur p2 + lastD (clampedAxis p1)))

/-- Line 68: the combined time axis when a clamped-ion segment is present. -/
def timeAxis (p1 p2 : List Sample) : List ℚ :=
  clampedAxis p1 ++ relaxedAxis p1 p2

/-- Lines 71-79: one uncorrected dipole series for a chosen column proj
(total, electronic or ionic): the zero-field reference value, then the
clamped rows (if a clamped segment is present), then the relaxed rows, with
the zero-field reference value subtracted from every entry. -/
def uncorrectedSeries (proj : Sample → ℚ) (p0 : Sample) (clamped : Option (List Sample))
    (p2 : List Sample) : List ℚ :=
  match clamped with
  | some p1 => ((proj p0 :: (p1.map proj ++ p2.map proj)).map (· - proj p0))
  | none => ((proj p0 :: p2.map proj).map (· - proj p0))

/-- Modelled from the spec: correct_jumps lives in the external
pybec.analysis module, not in this repository's sources.  Per the spec, for
each consecutive pair the raw difference d is computed; when its magnitude
strictly exceeds the threshold, the integer multiple n = round(d / quantum)
of the quantum is subtracted from that point and, cumulatively, from every
later point.  The cumulative subtraction is carried as the offset argument.
The default threshold is quantum / 2. -/
def correctJumpsGo (q thr : ℚ) (prev offset : ℚ) : List ℚ → List ℚ
  | [] => []
  | x :: xs =>
    let d := x - prev
    let offset2 := if thr < |d| then offset + (round (d / q) : ℤ) * q else offset
    (x - offset2) :: correctJumpsGo q thr x offset2 xs

/-- Modelled from the spec: entry point of the jump corrector; the first
point is never corrected. -/
def correct_jumps (q thr : ℚ) : List ℚ → List ℚ
  | [] => []
  | x :: xs => x :: correctJumpsGo q thr x 0 xs

/-- Line 88: the static relative permittivity from the last entry of the
corrected total-dipole series (atot[-1]). -/
noncomputable def eps_r (vol efield : ℝ) (atot : List ℚ) : ℝ :=
  1 + 4 * Real.pi * ((atot.getLast?.getD 0 : ℚ) : ℝ) / vol / efield

/-- Line 89: the high-frequency relative permittivity from the clamped-ion
table's last row's total dipole (p1[-1, -1]) minus the zero-field reference
total (p0[-1]), with no jump correction applied to the clamped series. -/
noncomputable def eps_inf (vol efield : ℝ) (p0 : Sample) (p1 : List Sample) : ℝ :=
  1 + 4 * Real.pi * ((((p1.getLast?.getD ⟨0, 0, 0, 0, 0⟩).tot : ℚ) : ℝ) - ((p0.tot : ℚ) : ℝ)) / vol / efield

/-- The whole run, lines 29-91, as one fallible function from the parsed
inputs to the pair (eps_r, eps_inf) that the script prints.  Mirrors the
script's order of failure: an empty zero-field table fails first (line 30),
then an empty stitched relaxed series (line 50 or 67), then the reference to
the undefined p1 when no clamped-ion file was given (line 89, reached before
anything is printed), then an empty clamped table (line 89). -/
noncomputable def runCalc (vol efield : ℝ) (pquant : ℚ) (zf : List Sample)
    (clamped : Option (List Sample)) (relaxed : List (List Sample))
    (extendMode : Bool) : Except CalcError (ℝ × ℝ) :=
  match zeroFieldSample zf with
  | none => .error .emptyInput
  | some p0 =>
    match (if extendMode then seqStitchExcept relaxed else dedupStitch relaxed) with
    | .error e => .error e
    | .ok p2 =>
      match clamped with
      | none => .error .missingClampedSegment
      | some p1 =>
        if p1.isEmpty then .error .emptyInput
        else
          let atotU := uncorrectedSeries Sample.tot p0 (some p1) p2
          let atot := correct_jumps pquant (pquant / 2) atotU
          .ok (eps_r vol efield atot, eps_inf vol efield p0 p1)

end EpsCalc

namespace EpsCalc

/-! ## Dictionary lemmas (deduplicate mode) -/

theorem dictInsert_eq (d : List (ℚ × Sample)) (k : ℚ) (v : Sample) :
    dictInsert d k v = if k ∈ d.map Prod.fst then dictReplace d k v else d ++ [(k, v)] := rfl

theorem dictReplace_fst (d : List (ℚ × Sample)) (k : ℚ) (v : Sample) :
    (dictReplace d k v).map Prod.fst = d.map Prod.fst := by
  induction d with
  | nil => rfl
  | cons p d ih =>
    simp only [dictReplace, List.map_cons] at ih ⊢
    refine congrArg₂ _ ?_ ih
    by_cases h : p.1 = k <;> simp [h]

theorem dictReplace_not_mem (d : List (ℚ × Sample)) (k : ℚ) (v : Sample)
    (h : k ∉ d.map Prod.fst) : dictReplace d k v = d := by
  induction d with
  | nil => rfl
  | cons p d ih =>
    simp only [List.map_cons, List.mem_cons, not_or] at h
    simp only [dictReplace, List.map_cons] at ih ⊢
    rw [if_neg (fun hpk => h.1 hpk.symm)]
    exact congrArg _ (ih h.2)

theorem dictReplace_dictReplace_same (d : List (ℚ × Sample)) (k : ℚ) (v w : Sample) :
    dictReplace (dictReplace d k v) k w = dictReplace d k w := by
  unfold dictReplace
  rw [List.map_map]
  refine List.map_congr_left ?_
  intro p _
  by_cases h : p.1 = k <;> simp [h]

theorem dictReplace_comm (d : List (ℚ × Sample)) (k k' : ℚ) (v v' : Sample) (h : k ≠ k') :
    dictReplace (dictReplace d k v) k' v' = dictReplace (dictReplace d k' v') k v := by
  unfold dictReplace
  rw [List.map_map, List.map_map]
  refine List.map_congr_left ?_
  intro p _
  by_cases h1 : p.1 = k
  · have h2 : ¬ p.1 = k' := fun hk' => h (h1.symm.trans hk')
    simp [h1, h2, h, Ne.symm h]
  · by_cases h2 : p.1 = k'
    · simp [h1, h2, h, Ne.symm h]
    · simp [h1, h2]

theorem dictReplace_append (d e : List (ℚ × Sample)) (k : ℚ) (v : Sample) :
    dictReplace (d ++ e) k v = dictReplace d k v ++ dictReplace e k v :=
  List.map_append _ d e

theorem dictInsert_dictReplace_comm (d : List (ℚ × Sample)) (k k' : ℚ) (v v' : Sample)
    (h : k ≠ k') :
    dictInsert (dictReplace d k v) k' v' = dictReplace (dictInsert d k' v') k v := by
  rw [dictInsert_eq, dictInsert_eq, dictReplace_fst]
  by_cases hm : k' ∈ d.map Prod.fst
  · rw [if_pos hm, if_pos hm, dictReplace_comm d k' k v' v (Ne.symm h)]
  · rw [if_neg hm, if_neg hm, dictReplace_append]
    simp [dictReplace, Ne.symm h]

theorem buildDict_nil (d : List (ℚ × Sample)) : buildDict d [] = d := rfl

theorem buildDict_cons (d : List (ℚ × Sample)) (s : Sample) (xs : List Sample) :
    buildDict d (s :: xs) = buildDict (dictInsert d s.step s) xs := rfl

theorem buildDict_dictReplace_comm (xs : List Sample) (k : ℚ) (v : Sample)
    (hk : ∀ s ∈ xs, s.step ≠ k) :
    ∀ d, buildDict (dictReplace d k v) xs = dictReplace (buildDict d xs) k v := by
  induction xs with
  | nil => intro d; rfl
  | cons s xs ih =>
    intro d
    have hs : k ≠ s.step := Ne.symm (hk s (List.mem_cons_self s xs))
    rw [buildDict_cons, buildDict_cons,
      dictInsert_dictReplace_comm d k s.step v s hs,
      ih (fun t ht => hk t (List.mem_cons_of_mem s ht))]

theorem mem_fst_dictInsert_self (d : List (ℚ × Sample)) (k : ℚ) (v : Sample) :
    k ∈ (dictInsert d k v).map Prod.fst := by
  rw [dictInsert_eq]
  by_cases hm : k ∈ d.map Prod.fst
  · rw [if_pos hm, dictReplace_fst]; exact hm
  · rw [if_neg hm]; simp

theorem mem_fst_dictInsert_of (d : List (ℚ × Sample)) (k k' : ℚ) (v : Sample)
    (h : k' ∈ d.map Prod.fst) : k' ∈ (dictInsert d k v).map Prod.fst := by
  rw [dictInsert_eq]
  by_cases hm : k ∈ d.map Prod.fst
  · rw [if_pos hm, dictReplace_fst]; exact h
  · rw [if_neg hm]; simp only [List.map_append, List.mem_append]; exact Or.inl h

theorem mem_fst_buildDict (xs : List Sample) (k : ℚ) :
    ∀ d, k ∈ d.map Prod.fst → k ∈ (buildDict d xs).map Prod.fst := by
  induction xs with
  | nil => intro d h; exact h
  | cons s xs ih =>
    intro d h
    rw [buildDict_cons]
    exact ih _ (mem_fst_dictInsert_of d s.step k s h)

theorem buildDict_dictReplace_absorb (xs : List Sample) (k : ℚ) (v : Sample) :
    ∀ d, k ∈ d.map Prod.fst → (∃ s ∈ xs, s.step = k) →
      buildDict (dictReplace d k v) xs = buildDict d xs := by
  induction xs with
  | nil =>
    intro d _ hex
    exact absurd hex (by simp)
  | cons s xs ih =>
    intro d hmem hex
    by_cases hs : s.step = k
    · subst hs
      rw [buildDict_cons, buildDict_cons, dictInsert_eq, dictInsert_eq,
        if_pos hmem, if_pos (by rw [dictReplace_fst]; exact hmem),
        dictReplace_dictReplace_same]
    · obtain ⟨t, ht, htk⟩ := hex
      have ht' : t ∈ xs := by
        rcases List.mem_cons.mp ht with h1 | h1
        · exact absurd (h1 ▸ htk) hs
        · exact h1
      rw [buildDict_cons, buildDict_cons,
        dictInsert_dictReplace_comm d k s.step v s (fun h => hs h.symm),
        ih (dictInsert d s.step s) (mem_fst_dictInsert_of d s.step k s hmem) ⟨t, ht', htk⟩]

theorem dictReplace_dictInsert_self (d : List (ℚ × Sample)) (k : ℚ) (v : Sample) :
    dictReplace (dictInsert d k v) k v = dictInsert d k v := by
  rw [dictInsert_eq]
  by_cases hm : k ∈ d.map Prod.fst
  · rw [if_pos hm, dictReplace_dictReplace_same]
  · rw [if_neg hm, dictReplace_append, dictReplace_not_mem d k v hm]
    simp [dictReplace]

theorem buildDict_idem (xs : List Sample) :
    ∀ d, buildDict (buildDict d xs) xs = buildDict d xs := by
  induction xs with
  | nil => intro d; rfl
  | cons s xs ih =>
    intro d
    rw [buildDict_cons, buildDict_cons]
    have hmem : s.step ∈ (buildDict (dictInsert d s.step s) xs).map Prod.fst :=
      mem_fst_buildDict xs s.step _ (mem_fst_dictInsert_self d s.step s)
    rw [dictInsert_eq, if_pos hmem]
    by_cases hex : ∃ t ∈ xs, t.step = s.step
    · rw [buildDict_dictReplace_absorb xs s.step s _ hmem hex, ih]
    · push_neg at hex
      rw [← buildDict_dictReplace_comm xs s.step s hex (dictInsert d s.step s),
        dictReplace_dictInsert_self, ih]

end EpsCalc

namespace EpsCalc

/-! ## Claim C8: dedup idempotence -/

/-- C8: stitching the same relaxed-ion segment file given twice in
deduplicate mode produces a result identical to stitching that file given
once; the whole downstream Series is a pure function of this result. -/
theorem c8_dedup_idempotent (f : List Sample) : dedupStitch [f, f] = dedupStitch [f] := by
  have h : pols [f, f] = pols [f] := buildDict_idem f []
  unfold dedupStitch
  rw [h]

/-- Concrete instance of C8. -/
theorem c8_dedup_idempotent_witness :
    dedupStitch [[(⟨5, 1, 0, 0, 0⟩ : Sample)], [⟨5, 1, 0, 0, 0⟩]] =
      dedupStitch [[⟨5, 1, 0, 0, 0⟩]] :=
  c8_dedup_idempotent [⟨5, 1, 0, 0, 0⟩]

/-! ## Claim C1: dedup merge emission order -/

/-- C1 (code bug evaluation): processing a file holding only step 5 and then
a file holding only step 3, deduplicate mode emits the samples in
first-insertion key order 5, 3 — not ascending step order — because line 50
of calculate.py iterates the unsorted dict pols, discarding the
step-sorted OrderedDict that line 49 just built. -/
theorem c1_dedup_order_bug :
    (dedupStitch [[⟨5, 1, 0, 0, 0⟩], [⟨3, 1, 0, 0, 0⟩]]).map (List.map Sample.step) =
      .ok [5, 3] ∧
    ¬ List.Chain' (· ≤ ·) ([5, 3] : List ℚ) := by
  constructor
  · norm_num [dedupStitch, pols, buildDict, dictInsert, Except.map]
  · norm_num [List.chain'_cons]

/-! ## Claim C7: empty merged mapping -/

/-- C7: if every relaxed-ion file contributes zero samples, the merged
mapping is empty and deduplicate-mode stitching fails with the empty-input
error (np.concatenate on an empty list raises, producing no series). -/
theorem c7_dedup_empty_input (segs : List (List Sample)) (h : ∀ seg ∈ segs, seg = []) :
    pols segs = [] ∧ dedupStitch segs = .error .emptyInput := by
  have hp : pols segs = [] := by
    unfold pols
    induction segs with
    | nil => rfl
    | cons seg rest ih =>
      rw [List.foldl_cons, h seg (List.mem_cons_self seg rest), buildDict_nil]
      exact ih (fun s hs => h s (List.mem_cons_of_mem seg hs))
  exact ⟨hp, by simp [dedupStitch, hp]⟩

/-- Concrete instance of C7: a single empty relaxed-ion file. -/
theorem c7_dedup_empty_input_witness :
    pols [([] : List Sample)] = [] ∧ dedupStitch [[]] = .error .emptyInput :=
  c7_dedup_empty_input [[]] (by simp)

end EpsCalc

namespace EpsCalc

/-! ## Claim C9: side effects of stitching -/

theorem shiftSeg_zero (seg : List Sample) : shiftSeg 0 seg = seg := by
  unfold shiftSeg
  induction seg with
  | nil => rfl
  | cons s ss ih =>
    rw [List.map_cons, ih]
    congr 1
    rw [add_zero]

theorem seqStitchState_fst_aux (segs : List (List Sample)) :
    ∀ (done : List (List Sample)) (p2 : Option (List Sample)),
      ∃ t, (segs.foldl seqStepState (done, p2)).1 = done ++ t ∧
        List.Forall₂ (fun pol fin => ∃ c : ℚ, fin = shiftSeg c pol) segs t := by
  induction segs with
  | nil =>
    intro done p2
    exact ⟨[], by simp, List.Forall₂.nil⟩
  | cons pol rest ih =>
    intro done p2
    by_cases hemp : pol.isEmpty
    · obtain ⟨t, ht, hrel⟩ := ih (done ++ [pol]) p2
      refine ⟨pol :: t, ?_, List.Forall₂.cons ⟨0, (shiftSeg_zero pol).symm⟩ hrel⟩
      rw [List.foldl_cons]
      have hstep : seqStepState (done, p2) pol = (done ++ [pol], p2) := by
        simp [seqStepState, hemp]
      rw [hstep, ht, List.append_assoc]
      rfl
    · cases p2 with
      | none =>
        obtain ⟨t, ht, hrel⟩ := ih (done ++ [pol]) (some pol)
        refine ⟨pol :: t, ?_, List.Forall₂.cons ⟨0, (shiftSeg_zero pol).symm⟩ hrel⟩
        rw [List.foldl_cons]
        have hstep : seqStepState (done, none) pol = (done ++ [pol], some pol) := by
          simp [seqStepState, hemp]
        rw [hstep, ht, List.append_assoc]
        rfl
      | some acc =>
        obtain ⟨t, ht, hrel⟩ :=
          ih (done ++ [shiftSeg (lastStep acc) pol]) (some (acc ++ shiftSeg (lastStep acc) pol))
        refine ⟨shiftSeg (lastStep acc) pol :: t, ?_,
          List.Forall₂.cons ⟨lastStep acc, rfl⟩ hrel⟩
        rw [List.foldl_cons]
        have hstep : seqStepState (done, some acc) pol =
            (done ++ [shiftSeg (lastStep acc) pol], some (acc ++ shiftSeg (lastStep acc) pol)) := by
          simp [seqStepState, hemp]
        rw [hstep, ht, List.append_assoc]
        rfl

/-- C9 counterexample: stitching is not free of side effects.  With sorting
enabled, line 39 reorders the relaxed-ion file list in place; in sequential
mode, line 60 rewrites the second file's step-index column in place (its
table afterwards holds step 2, not the parsed step 1). -/
theorem c9_counterexample :
    sortFiles false ["b", "a"] ≠ ["b", "a"] ∧
    (seqStitchState [[(⟨1, 1, 0, 0, 0⟩ : Sample)], [⟨1, 1, 0, 0, 0⟩]]).1 ≠
      [[⟨1, 1, 0, 0, 0⟩], [⟨1, 1, 0, 0, 0⟩]] := by
  constructor
  · have h : sortFiles false ["b", "a"] = ["a", "b"] := by
      simp [sortFiles, insertSorted]
      decide
    rw [h]
    decide
  · have h : (seqStitchState [[(⟨1, 1, 0, 0, 0⟩ : Sample)], [⟨1, 1, 0, 0, 0⟩]]).1 =
        [[⟨1, 1, 0, 0, 0⟩], [⟨2, 1, 0, 0, 0⟩]] := by
      norm_num [seqStitchState, seqStepState, shiftSeg, lastStep]
    rw [h]
    norm_num [Sample.mk.injEq]

/-- C9 amended: with sorting disabled the file list is unchanged; in every
stitching mode each input table is returned either unchanged or with its
step-index column uniformly shifted (sequential mode's in-place shift);
durations and dipole columns are never altered, and deduplicate mode has no
mutation at all (its translation reads the tables without updating them). -/
theorem c9_amended :
    (∀ files : List String, sortFiles true files = files) ∧
    ∀ segs : List (List Sample),
      List.Forall₂ (fun pol fin => ∃ c : ℚ, fin = shiftSeg c pol) segs
        (seqStitchState segs).1 := by
  constructor
  · intro files
    rfl
  · intro segs
    obtain ⟨t, ht, hrel⟩ := seqStitchState_fst_aux segs [] none
    rw [seqStitchState, ht, List.nil_append]
    exact hrel

end EpsCalc

namespace EpsCalc

/-! ## Claim C6: sequential mode monotonicity -/

theorem lastStep_eq (acc : List Sample) (h : acc ≠ []) :
    lastStep acc = (acc.getLast h).step := by
  rw [lastStep, List.getLast?_eq_getLast acc h]
  rfl

theorem lastStep_pos (acc : List Sample) (hne : acc ≠ []) (hpos : ∀ s ∈ acc, 0 < s.step) :
    0 < lastStep acc := by
  rw [lastStep_eq acc hne]
  exact hpos _ (List.getLast_mem hne)

theorem shiftSeg_map_step (c : ℚ) (pol : List Sample) :
    (shiftSeg c pol).map Sample.step = (pol.map Sample.step).map (· + c) := by
  unfold shiftSeg
  rw [List.map_map, List.map_map]
  rfl

/-- The invariant preserved by one sequential-mode loop iteration: the
running total is non-empty, has positive step indices, and strictly
increasing step indices. -/
theorem seqStep_inv (p2 : Option (List Sample)) (pol : List Sample)
    (hinc : List.Chain' (· < ·) (pol.map Sample.step))
    (hpos : ∀ s ∈ pol, 0 < s.step)
    (hp : ∀ acc, p2 = some acc →
      acc ≠ [] ∧ (∀ s ∈ acc, 0 < s.step) ∧ List.Chain' (· < ·) (acc.map Sample.step)) :
    ∀ acc', seqStep p2 pol = some acc' →
      acc' ≠ [] ∧ (∀ s ∈ acc', 0 < s.step) ∧ List.Chain' (· < ·) (acc'.map Sample.step) := by
  intro acc' hacc'
  by_cases hemp : pol.isEmpty
  · simp only [seqStep] at hacc'
    rw [if_pos hemp] at hacc'
    exact hp acc' hacc'
  · simp only [seqStep] at hacc'
    rw [if_neg hemp] at hacc'
    have hpolne : pol ≠ [] := by
      intro hnil
      rw [hnil] at hemp
      exact hemp rfl
    cases p2 with
    | none =>
      cases hacc'
      exact ⟨hpolne, hpos, hinc⟩
    | some acc =>
      obtain ⟨hne, haccpos, haccinc⟩ := hp acc rfl
      cases hacc'
      have hcpos : 0 < lastStep acc := lastStep_pos acc hne haccpos
      refine ⟨by simp [hne], ?_, ?_⟩
      · intro s hs
        rcases List.mem_append.mp hs with hs | hs
        · exact haccpos s hs
        · obtain ⟨u, hu, rfl⟩ := List.mem_map.mp hs
          exact add_pos (hpos u hu) hcpos
      · rw [List.map_append]
        refine List.chain'_append.mpr ⟨haccinc, ?_, ?_⟩
        · rw [shiftSeg_map_step]
          exact (List.chain'_map _).mpr (hinc.imp (fun a b hab => by
            simpa using add_lt_add_right hab (lastStep acc)))
        · intro x hx y hy
          rw [List.getLast?_map, List.getLast?_eq_getLast acc hne] at hx
          have hxval : x = (acc.getLast hne).step := by
            simpa using hx.symm
          rw [shiftSeg_map_step] at hy
          cases pol with
          | nil => exact absurd rfl hpolne
          | cons q qs =>
            have hyval : y = q.step + lastStep acc := by
              simpa using hy.symm
            rw [hxval, hyval, ← lastStep_eq acc hne]
            have : 0 < q.step := hpos q (List.mem_cons_self q qs)
            linarith

theorem seqFold_inv (segs : List (List Sample))
    (hinc : ∀ seg ∈ segs, List.Chain' (· < ·) (seg.map Sample.step))
    (hpos : ∀ seg ∈ segs, ∀ s ∈ seg, 0 < s.step) :
    ∀ p2 : Option (List Sample),
      (∀ acc, p2 = some acc →
        acc ≠ [] ∧ (∀ s ∈ acc, 0 < s.step) ∧ List.Chain' (· < ·) (acc.map Sample.step)) →
      ∀ acc', segs.foldl seqStep p2 = some acc' →
        acc' ≠ [] ∧ (∀ s ∈ acc', 0 < s.step) ∧ List.Chain' (· < ·) (acc'.map Sample.step) := by
  induction segs with
  | nil =>
    intro p2 hp acc' h
    exact hp acc' h
  | cons pol rest ih =>
    intro p2 hp acc' h
    rw [List.foldl_cons] at h
    refine ih (fun seg hs => hinc seg (List.mem_cons_of_mem pol hs))
      (fun seg hs => hpos seg (List.mem_cons_of_mem pol hs)) (seqStep p2 pol) ?_ acc' h
    exact seqStep_inv p2 pol (hinc pol (List.mem_cons_self pol rest))
      (hpos pol (List.mem_cons_self pol rest)) hp

/-- C6 counterexample: both input segments have (trivially) increasing step
indices, yet the stitched series' step indices are [1, 1]: when the second
segment starts at step 0, the shift by the running total's last step index
(line 60) produces a duplicated index at the segment boundary, so the claim
as stated is false. -/
theorem c6_counterexample :
    (∀ seg ∈ [[(⟨1, 1, 0, 0, 0⟩ : Sample)], [⟨0, 1, 0, 0, 0⟩]],
        List.Chain' (· < ·) (seg.map Sample.step)) ∧
    seqStitch [[⟨1, 1, 0, 0, 0⟩], [⟨0, 1, 0, 0, 0⟩]] =
      some [⟨1, 1, 0, 0, 0⟩, ⟨1, 1, 0, 0, 0⟩] ∧
    ¬ List.Chain' (· < ·)
        (List.map Sample.step [(⟨1, 1, 0, 0, 0⟩ : Sample), ⟨1, 1, 0, 0, 0⟩]) := by
  refine ⟨?_, ?_, ?_⟩
  · intro seg hseg
    rcases List.mem_cons.mp hseg with rfl | hseg
    · simp
    · rcases List.mem_cons.mp hseg with rfl | hseg
      · simp
      · exact absurd hseg (List.not_mem_nil seg)
  · norm_num [seqStitch, seqStep, shiftSeg, lastStep]
  · norm_num [List.chain'_cons]

/-- C6 amended: in sequential mode every file extending a non-empty running
total has its step indices shifted by the running total's last step index,
and for inputs whose segments each have strictly increasing AND strictly
positive step indices, the stitched step-index sequence is strictly
increasing (in particular across segment boundaries). -/
theorem c6_seq_monotone (segs : List (List Sample))
    (hinc : ∀ seg ∈ segs, List.Chain' (· < ·) (seg.map Sample.step))
    (hpos : ∀ seg ∈ segs, ∀ s ∈ seg, 0 < s.step) :
    (∀ (acc pol : List Sample), pol ≠ [] →
      seqStep (some acc) pol = some (acc ++ shiftSeg (lastStep acc) pol)) ∧
    ∀ p2, seqStitch segs = some p2 → List.Chain' (· < ·) (p2.map Sample.step) := by
  constructor
  · intro acc pol hne
    cases pol with
    | nil => exact absurd rfl hne
    | cons q qs => rfl
  · intro p2 hp2
    exact (seqFold_inv segs hinc hpos none (fun acc h => by cases h) p2 hp2).2.2

/-- Concrete instance of C6 (amended): segments with steps [1] and [2]
stitch to steps [1, 3], strictly increasing. -/
theorem c6_witness :
    List.Chain' (· < ·)
      (List.map Sample.step [(⟨1, 1, 0, 0, 0⟩ : Sample), ⟨3, 1, 0, 0, 0⟩]) := by
  refine (c6_seq_monotone [[⟨1, 1, 0, 0, 0⟩], [⟨2, 1, 0, 0, 0⟩]] ?_ ?_).2
    [⟨1, 1, 0, 0, 0⟩, ⟨3, 1, 0, 0, 0⟩] ?_
  · intro seg hseg
    rcases List.mem_cons.mp hseg with rfl | hseg
    · simp
    · rcases List.mem_cons.mp hseg with rfl | hseg
      · simp
      · exact absurd hseg (List.not_mem_nil seg)
  · intro seg hseg s hs
    rcases List.mem_cons.mp hseg with rfl | hseg
    · rcases List.mem_singleton.mp hs with rfl
      norm_num
    · rcases List.mem_cons.mp hseg with rfl | hseg
      · rcases List.mem_singleton.mp hs with rfl
        norm_num
      · exact absurd hseg (List.not_mem_nil seg)
  · norm_num [seqStitch, seqStep, shiftSeg, lastStep]

end EpsCalc

namespace EpsCalc

/-! ## Claim C3: time-axis construction -/

theorem head?_scanl_add (a : ℚ) (l : List ℚ) :
    (List.scanl (· + ·) a l).head? = some a := by
  cases l <;> simp [List.scanl]

theorem scanl_add_ne_nil (a : ℚ) (l : List ℚ) :
    List.scanl (· + ·) a l ≠ [] := by
  cases l <;> simp [List.scanl]

theorem chain'_le_scanl (l : List ℚ) (h : ∀ x ∈ l, 0 ≤ x) :
    ∀ a, List.Chain' (· ≤ ·) (List.scanl (· + ·) a l) := by
  induction l with
  | nil =>
    intro a
    simp [List.scanl]
  | cons x xs ih =>
    intro a
    rw [List.scanl]
    refine List.chain'_cons'.mpr ⟨?_, ih (fun y hy => h y (List.mem_cons_of_mem x hy)) (a + x)⟩
    intro y hy
    rw [head?_scanl_add] at hy
    have hx : 0 ≤ x := h x (List.mem_cons_self x xs)
    have hyv : y = a + x := by simpa using hy.symm
    rw [hyv]
    linarith

theorem chain'_le_cumsum (l : List ℚ) (h : ∀ x ∈ l, 0 ≤ x) :
    List.Chain' (· ≤ ·) (cumsum l) :=
  (chain'_le_scanl l h 0).tail

theorem clampedAxis_head (p1 : List Sample) : ∃ t, clampedAxis p1 = 0 :: t := by
  unfold clampedAxis
  cases p1.map Sample.dur with
  | nil => exact ⟨[], rfl⟩
  | cons d ds => exact ⟨_, rfl⟩

/-- C3: with a clamped-ion segment present and a non-empty relaxed series,
the time axis is the concatenation of the clamped axis (leading zero plus
cumulative clamped durations) with the shifted relaxed cumulative axis; it
starts at 0 and, for positive step durations and non-negative relaxed step
indices, is non-decreasing. -/
theorem c3_time_axis (p1 p2 : List Sample) (h2 : p2 ≠ [])
    (hd1 : ∀ s ∈ p1, 0 < s.dur) (hd2 : ∀ s ∈ p2, 0 < s.dur)
    (hstep : ∀ s ∈ p2, 0 ≤ s.step) :
    timeAxis p1 p2 = clampedAxis p1 ++
      (cumsum (p2.map Sample.dur)).map
        (· + (headStep p2 * headDur p2 + lastD (clampedAxis p1))) ∧
    (timeAxis p1 p2).head? = some 0 ∧
    List.Chain' (· ≤ ·) (timeAxis p1 p2) := by
  have hdur1 : ∀ x ∈ p1.map Sample.dur, (0 : ℚ) ≤ x := by
    intro x hx
    obtain ⟨s, hs, rfl⟩ := List.mem_map.mp hx
    exact le_of_lt (hd1 s hs)
  have hdur2 : ∀ x ∈ p2.map Sample.dur, (0 : ℚ) ≤ x := by
    intro x hx
    obtain ⟨s, hs, rfl⟩ := List.mem_map.mp hx
    exact le_of_lt (hd2 s hs)
  refine ⟨rfl, ?_, ?_⟩
  · obtain ⟨t, ht⟩ := clampedAxis_head p1
    rw [timeAxis, ht]
    rfl
  · rw [timeAxis]
    refine List.chain'_append.mpr ⟨chain'_le_scanl _ hdur1 0, ?_, ?_⟩
    · unfold relaxedAxis
      exact (List.chain'_map _).mpr ((chain'_le_cumsum _ hdur2).imp
        (fun a b hab => add_le_add_right hab _))
    · intro x hx y hy
      have hxv : x = lastD (clampedAxis p1) := by
        rw [lastD, Option.mem_def.mp hx]
        rfl
      cases p2 with
      | nil => exact absurd rfl h2
      | cons q qs =>
        have hcs : cumsum ((q :: qs).map Sample.dur) =
            List.scanl (· + ·) (0 + q.dur) (qs.map Sample.dur) := by
          rw [List.map_cons, cumsum, List.scanl]
          rfl
        rw [relaxedAxis, List.head?_map, hcs, head?_scanl_add] at hy
        have hyv : y = 0 + q.dur + (headStep (q :: qs) * headDur (q :: qs) + lastD (clampedAxis p1)) := by
          simpa using hy.symm
        have hq1 : 0 < q.dur := hd2 q (List.mem_cons_self q qs)
        have hq2 : 0 ≤ q.step := hstep q (List.mem_cons_self q qs)
        have hhs : headStep (q :: qs) = q.step := rfl
        have hhd : headDur (q :: qs) = q.dur := rfl
        rw [hyv, hxv, hhs, hhd]
        nlinarith

/-- Concrete instance of C3: one clamped sample of duration 1, one relaxed
sample with step 2 and duration 1; the resulting axis is non-decreasing. -/
theorem c3_witness :
    List.Chain' (· ≤ ·) (timeAxis [⟨1, 1, 0, 0, 0⟩] [⟨2, 1, 0, 0, 0⟩]) := by
  refine (c3_time_axis [⟨1, 1, 0, 0, 0⟩] [⟨2, 1, 0, 0, 0⟩] (by simp) ?_ ?_ ?_).2.2
  · intro s hs
    rcases List.mem_singleton.mp hs with rfl
    norm_num
  · intro s hs
    rcases List.mem_singleton.mp hs with rfl
    norm_num
  · intro s hs
    rcases List.mem_singleton.mp hs with rfl
    norm_num

end EpsCalc

namespace EpsCalc

/-! ## Claim C2: static relative permittivity -/

/-- C2: the static permittivity is exactly 1 + 4 pi A_tot[-1] / V / E, and at
V = 1000, E = 0.001, A_tot[-1] = 0.005 it is within 0.001 of 1.063. -/
theorem c2_eps_r :
    (∀ (vol efield : ℝ) (a : ℚ) (atot : List ℚ), atot.getLast? = some a →
      eps_r vol efield atot = 1 + 4 * Real.pi * (a : ℝ) / vol / efield) ∧
    |eps_r 1000 (1 / 1000) [(1 / 200 : ℚ)] - 1.063| < 1 / 1000 := by
  constructor
  · intro vol efield a atot h
    rw [eps_r, h]
    rfl
  · have h : eps_r 1000 (1 / 1000) [(1 / 200 : ℚ)] = 1 + Real.pi / 50 := by
      rw [eps_r]
      norm_num
      ring
    rw [h, abs_lt]
    constructor <;> nlinarith [Real.pi_gt_d6, Real.pi_lt_d6]

/-- Concrete instance of C2's formula. -/
theorem c2_witness :
    eps_r 5 2 [(3 : ℚ)] = 1 + 4 * Real.pi * ((3 : ℚ) : ℝ) / 5 / 2 :=
  c2_eps_r.1 5 2 3 [3] rfl

/-! ## Claim C4: high-frequency relative permittivity -/

/-- C4: the high-frequency permittivity is 1 + 4 pi (clamped final total
minus zero-field baseline) / V / E, computed from the raw clamped series:
it depends only on the clamped segment's last recorded sample (no jump
correction is applied to the clamped segment anywhere in the script). -/
theorem c4_eps_inf (vol efield : ℝ) (p0 : Sample) (p1 : List Sample) (h : p1 ≠ []) :
    eps_inf vol efield p0 p1 =
      1 + 4 * Real.pi * ((((p1.getLast h).tot : ℚ) : ℝ) - ((p0.tot : ℚ) : ℝ)) / vol / efield ∧
    ∀ p1' : List Sample, p1'.getLast? = p1.getLast? →
      eps_inf vol efield p0 p1' = eps_inf vol efield p0 p1 := by
  constructor
  · rw [eps_inf, List.getLast?_eq_getLast p1 h]
    rfl
  · intro p1' hp
    rw [eps_inf, eps_inf, hp]

/-- Concrete instance of C4. -/
theorem c4_witness :
    eps_inf 1 1 (⟨0, 0, 0, 0, 1⟩ : Sample) [⟨0, 0, 0, 0, 2⟩] =
      1 + 4 * Real.pi * ((((2 : ℚ)) : ℝ) - (((1 : ℚ)) : ℝ)) / 1 / 1 :=
  (c4_eps_inf 1 1 ⟨0, 0, 0, 0, 1⟩ [⟨0, 0, 0, 0, 2⟩] (by simp)).1

/-! ## Claim C5: missing clamped segment -/

/-- C5: whenever the zero-field table is non-empty and relaxed-ion stitching
succeeds, a run with no clamped-ion segment fails with the
missing-clamped-segment condition (line 89 references the undefined p1
before anything is printed) and produces no results. -/
theorem c5_missing_clamped (vol efield : ℝ) (pquant : ℚ) (zf : List Sample)
    (relaxed : List (List Sample)) (extendMode : Bool)
    (hzf : zf ≠ [])
    (hstitch : ∃ p2, (if extendMode then seqStitchExcept relaxed else dedupStitch relaxed) = .ok p2) :
    runCalc vol efield pquant zf none relaxed extendMode = .error .missingClampedSegment := by
  obtain ⟨p2, hp2⟩ := hstitch
  obtain ⟨p0, hp0⟩ : ∃ p0, zeroFieldSample zf = some p0 := by
    rw [zeroFieldSample, List.getLast?_eq_getLast zf hzf]
    exact ⟨_, rfl⟩
  unfold runCalc
  rw [hp0, hp2]

/-- Concrete instance of C5. -/
theorem c5_witness :
    runCalc 1 1 1 [(⟨0, 0, 0, 0, 0⟩ : Sample)] none [[⟨1, 1, 0, 0, 0⟩]] false =
      .error .missingClampedSegment := by
  refine c5_missing_clamped 1 1 1 [⟨0, 0, 0, 0, 0⟩] [[⟨1, 1, 0, 0, 0⟩]] false (by simp) ?_
  refine ⟨[⟨1, 1, 0, 0, 0⟩], ?_⟩
  norm_num [dedupStitch, pols, buildDict, dictInsert]

/-! ## Claim C10: zero-field referencing -/

/-- C10: the reference value is the LAST sample of the zero-field table
(lines 29-30), and each uncorrected stitched series (total, electronic,
ionic), in both the clamped and the unclamped branch, starts at exactly 0
because its first entry is that same reference value minus itself. -/
theorem c10_zero_reference (zf : List Sample) (h : zf ≠ [])
    (clamped : Option (List Sample)) (p2 : List Sample) :
    zeroFieldSample zf = some (zf.getLast h) ∧
    (uncorrectedSeries Sample.tot (zf.getLast h) clamped p2).head? = some 0 ∧
    (uncorrectedSeries Sample.elec (zf.getLast h) clamped p2).head? = some 0 ∧
    (uncorrectedSeries Sample.ion (zf.getLast h) clamped p2).head? = some 0 := by
  refine ⟨List.getLast?_eq_getLast zf h, ?_, ?_, ?_⟩ <;>
    cases clamped <;> simp [uncorrectedSeries]

/-- Concrete instance of C10: the zero-field table has two distinct samples;
the reference is the second (last) one, and all three series start at 0. -/
theorem c10_witness :
    zeroFieldSample [(⟨0, 0, 0, 0, 1⟩ : Sample), ⟨0, 0, 1, 2, 3⟩] =
      some (⟨0, 0, 1, 2, 3⟩ : Sample) ∧
    (uncorrectedSeries Sample.tot (⟨0, 0, 1, 2, 3⟩ : Sample)
      (some [⟨1, 1, 0, 0, 5⟩]) [⟨2, 1, 0, 0, 7⟩]).head? = some 0 ∧
    (uncorrectedSeries Sample.elec (⟨0, 0, 1, 2, 3⟩ : Sample)
      (some [⟨1, 1, 0, 0, 5⟩]) [⟨2, 1, 0, 0, 7⟩]).head? = some 0 ∧
    (uncorrectedSeries Sample.ion (⟨0, 0, 1, 2, 3⟩ : Sample)
      (some [⟨1, 1, 0, 0, 5⟩]) [⟨2, 1, 0, 0, 7⟩]).head? = some 0 :=
  c10_zero_reference [⟨0, 0, 0, 0, 1⟩, ⟨0, 0, 1, 2, 3⟩] (by simp)
    (some [⟨1, 1, 0, 0, 5⟩]) [⟨2, 1, 0, 0, 7⟩]

end EpsCalc
